import Mathlib

/-!
Verification development for the feature-extraction core of
"Hidden in Time, Revealed in Frequency": two spectral feature extractors
(STFT-based and DWT-based) and a batch applier over tabular data.

Modelling conventions.

Scalars are embedded as exact rationals (`ℚ`).  The source computes with
IEEE doubles; none of the properties verified here depend on rounding, so
exact arithmetic stands in for floating point.  `np.sqrt` is modelled by
`Rat.sqrt`, which is nonnegative everywhere and agrees with the real square
root at every perfect square (in particular at `0`, the only point where a
verified property inspects a square root's value).

The DWT path (`pywt.wavedec`) is modelled at full value level: one
discrete-wavelet analysis step is a symmetric-extension convolution with
the wavelet's decomposition filter pair followed by downsampling by two,
with output length `(n + filterLen - 1) / 2` — pywt's documented
`dwt_coeff_len` for its default `symmetric` mode.  `pywt.wavedec` with an
explicit `level` runs exactly `level` analysis steps on the successive
approximation signals (when the level exceeds `pywt.dwt_max_level` it
emits a boundary-effects warning but still runs all `level` steps; only a
zero-length input is rejected) and returns the coefficient arrays ordered
`[cA_L, cD_L, ..., cD_1]`, coarsest approximation first.  The filter taps
of the source's default basis `'coif6'` live inside pywt, outside this
repository; all theorems therefore quantify over an arbitrary filter bank,
which covers `'coif6'` as an instance.

The STFT path is modelled at two levels, because the contents of the
magnitude spectrogram and of the librosa descriptors are
transcendental-valued and admit no exact embedding: a shape model of the
output length, and a value model of the dispatch-and-concatenate stage
over the per-statistic segment arrays.  The shape facts used:
`scipy.signal.stft` validates `nperseg=256` against the input length
before any boundary extension, clamping it to `n` (with a warning) for
`n < 256` and raising `ValueError` (`noverlap must be less than
nperseg`) for `n ≤ 128` since `noverlap=128` is passed explicitly; for
accepted inputs, with the clamped window length `p`, hop `p - 128`,
default `boundary='zeros'` and `padded=True`, it yields `p/2 + 1`
frequency rows (`129` when `n ≥ 256`) and
`⌈(n + 2*(p/2) - p)/(p - 128)⌉ + 1` time frames (`⌈n/128⌉ + 1` when
`n ≥ 256`); `np.mean`/`np.std` along `axis=1` give one value per
frequency row, while each librosa descriptor used returns a matrix with
one column per time frame, of which the source keeps row `[0]`.
-/

/-- A discrete-wavelet decomposition filter bank: low-pass and high-pass
analysis filters.  The source selects one by name (default `'coif6'`,
a 36-tap pair); the taps themselves are pywt data, so the filter bank is
an explicit argument here. -/
structure Wavelet where
  dec_lo : List ℚ
  dec_hi : List ℚ

/-- Length of the decomposition filters (pywt's `wavelet.dec_len`). -/
def Wavelet.dec_len (w : Wavelet) : ℕ := w.dec_lo.length

/-- A concrete two-tap filter bank used to instantiate theorems at
concrete inputs. -/
def wtest : Wavelet := ⟨[1, 1], [1, -1]⟩

/-- Symmetric ("half-sample") boundary extension as an index map: an
arbitrary integer index is folded into `[0, n)` by reflecting with period
`2 * n`, which is pywt's `symmetric` signal extension mode extended to
arbitrary overrun. -/
def symIndex (n : ℕ) (i : ℤ) : ℕ :=
  if n = 0 then 0
  else
    let j := (i % (2 * (n : ℤ))).toNat
    if j < n then j else 2 * n - 1 - j

/-- Value of the symmetric extension of `x` at integer index `i`. -/
def extAt (x : List ℚ) (i : ℤ) : ℚ := x.getD (symIndex x.length i) 0

/-- One output sample of the filter-and-downsample-by-two analysis
convolution of `x` with filter `h`, on the symmetric extension of `x`. -/
def convDown (h : List ℚ) (x : List ℚ) (k : ℕ) : ℚ :=
  ((List.range h.length).map
    (fun j => h.getD j 0 * extAt x (2 * (k : ℤ) + 1 - (j : ℤ)))).sum

/-- Single-level discrete wavelet analysis step (pywt's `dwt`): returns
the pair (approximation, detail), both of length
`(n + dec_len - 1) / 2` (pywt's `dwt_coeff_len` in `symmetric` mode). -/
def dwt (w : Wavelet) (x : List ℚ) : List ℚ × List ℚ :=
  let m := (x.length + w.dec_len - 1) / 2
  ((List.range m).map (convDown w.dec_lo x),
   (List.range m).map (convDown w.dec_hi x))

/-- Coefficient list of the multi-level decomposition: `level` analysis
steps on the successive approximations, returned as
`[cA_level, cD_level, ..., cD_1]` (coarsest approximation first, finest
detail last), exactly pywt's `wavedec` loop followed by its reverse. -/
def wavedecAux (w : Wavelet) : ℕ → List ℚ → List (List ℚ)
  | 0, a => [a]
  | l + 1, a => wavedecAux w l (dwt w a).1 ++ [(dwt w a).2]

/-- Model of `pywt.wavedec(data, wavelet, level=level)`: rejects only a
zero-length input; a `level` above `dwt_max_level` produces a warning in
pywt but the decomposition is still carried out in full, so no error is
modelled for short (nonempty) inputs. -/
def wavedec (w : Wavelet) (data : List ℚ) (level : ℕ) :
    Option (List (List ℚ)) :=
  if data.isEmpty then none else some (wavedecAux w level data)

/-- The `level`-fold iterated approximation (low-pass) signal; the head of
`wavedecAux w level data` is `approxIter w level data`. -/
def approxIter (w : Wavelet) : ℕ → List ℚ → List ℚ
  | 0, a => a
  | l + 1, a => approxIter w l (dwt w a).1

/-- Arithmetic mean (`np.mean`); the mean of an empty list is `0` here
(numpy would give NaN, a case never reached by nonempty coefficient
arrays). -/
def meanQ (x : List ℚ) : ℚ := x.sum / (x.length : ℚ)

/-- Population standard deviation (`np.std`), with `Rat.sqrt` standing in
for the floating-point square root. -/
def stdQ (x : List ℚ) : ℚ :=
  Rat.sqrt (meanQ (x.map (fun v => (v - meanQ x) ^ 2)))

/-- Insertion of an element into a sorted list, for `sortQ`. -/
def insertSorted (a : ℚ) : List ℚ → List ℚ
  | [] => [a]
  | b :: t => if a ≤ b then a :: b :: t else b :: insertSorted a t

/-- Ascending insertion sort, modelling the sort inside `np.median`. -/
def sortQ : List ℚ → List ℚ
  | [] => []
  | a :: t => insertSorted a (sortQ t)

/-- Median (`np.median`): middle element of the sorted list for odd
length, average of the two middle elements for even length. -/
def medianQ (x : List ℚ) : ℚ :=
  let s := sortQ x
  let n := s.length
  if n = 0 then 0
  else if n % 2 = 1 then s.getD (n / 2) 0
  else (s.getD (n / 2 - 1) 0 + s.getD (n / 2) 0) / 2

/-- Maximum (`np.max`); `0` on the empty list (numpy raises there, a case
never reached by nonempty coefficient arrays). -/
def maxQ : List ℚ → ℚ
  | [] => 0
  | a :: t => t.foldl max a

/-- Minimum (`np.min`); `0` on the empty list, as for `maxQ`. -/
def minQ : List ℚ → ℚ
  | [] => 0
  | a :: t => t.foldl min a

/-- Sum of squared coefficients (`np.sum(np.square(x))`). -/
def energyQ (x : List ℚ) : ℚ := (x.map (fun v => v * v)).sum

/-- Root mean square, `np.sqrt(np.mean(np.square(x)))`. -/
def rmsQ (x : List ℚ) : ℚ := Rat.sqrt (meanQ (x.map (fun v => v * v)))

/-- Mean absolute value, `np.mean(np.abs(x))`. -/
def meanAbsQ (x : List ℚ) : ℚ := meanQ (x.map (fun v => |v|))

/-- The source's `epsilon = 1e-10`, the divide-by-zero guard. -/
def epsilon : ℚ := 1 / 10000000000

/-- Crest factor: `np.max(np.abs(x)) / (rms(x) + epsilon)`. -/
def crest_factor (x : List ℚ) : ℚ := maxQ (x.map (fun v => |v|)) / (rmsQ x + epsilon)

/-- Shape factor: `rms(x) / (np.mean(np.abs(x)) + epsilon)`. -/
def shape_factor (x : List ℚ) : ℚ := rmsQ x / (meanAbsQ x + epsilon)

/-- The wavelet extractor's dispatch table `feature_map`: statistic name
to scalar reduction, `none` for names outside the supported vocabulary
(membership in the Python dict). -/
def feature_map (f : String) : Option (List ℚ → ℚ) :=
  if f = "mean" then some meanQ
  else if f = "std" then some stdQ
  else if f = "median" then some medianQ
  else if f = "max" then some maxQ
  else if f = "min" then some minQ
  else if f = "range" then some (fun x => maxQ x - minQ x)
  else if f = "energy" then some energyQ
  else if f = "crest_factor" then some crest_factor
  else if f = "shape_factor" then some shape_factor
  else none

/-- The dict's key list in insertion order, `list(feature_map.keys())`:
the default wavelet FeatureSpec. -/
def wavelet_feature_names : List String :=
  ["mean", "std", "median", "max", "min", "range", "energy",
   "crest_factor", "shape_factor"]

/-- Total view of a supported statistic (used to state theorems); on
supported names it is the dispatch-table entry. -/
def statOf (f : String) : List ℚ → ℚ := (feature_map f).getD (fun _ => 0)

/-- Model of `extract_wavelet_features(data, features_to_extract, wavelet,
level)`: decompose, then for every coefficient array extend the output by
the requested statistics in spec order, keeping only names found in
`feature_map` (`if feat in feature_map`); an empty spec (Python-falsy
`None`/`[]`) selects the full dict key list.  `none` exactly when the
decomposition rejects the input. -/
def extract_wavelet_features (data : List ℚ) (features_to_extract : List String)
    (wavelet : Wavelet) (level : ℕ) : Option (List ℚ) :=
  (wavedec wavelet data level).map (fun coeffs =>
    let feats := if features_to_extract.isEmpty then wavelet_feature_names
                 else features_to_extract
    (coeffs.map (fun coeff =>
      feats.filterMap (fun feat => (feature_map feat).map (fun g => g coeff)))).flatten)

/-- Keys of the STFT extractor's `feature_map`, which coincide with its
default spec tuple (same nine names, same order). -/
def stft_feature_names : List String :=
  ["mean", "std", "spectral_centroid", "spectral_bandwidth",
   "spectral_contrast", "spectral_flatness", "spectral_rolloff",
   "chroma_stft", "mfcc"]

/-- The window length scipy actually uses for a length-`n` input:
`scipy.signal.stft` validates `nperseg=256` against the pre-extension
input length (`_triage_segments`) and, when the signal is shorter, warns
and clamps `nperseg` to the signal length. -/
def stft_nperseg (n : ℕ) : ℕ := min n 256

/-- Number of frequency rows of the one-sided magnitude spectrogram of a
length-`n` signal: `nperseg // 2 + 1` with the clamped `nperseg`, so
`129` for `n ≥ 256` but `n // 2 + 1` for `128 < n < 256`.  (For
`n ≤ 128` scipy raises before any spectrogram exists; see
`extract_stft_features_len`.) -/
def stft_bins (n : ℕ) : ℕ := stft_nperseg n / 2 + 1

/-- Number of time frames of that spectrogram for an input of length
`n > 128`: with the clamped window length `p = min(n, 256)`, hop
`p - 128` (`noverlap = 128` is kept as given), default `boundary='zeros'`
(which prepends and appends `p // 2` zeros) and default `padded=True`
(which zero-pads up to a whole number of hops), scipy produces
`⌈(n + 2*(p//2) - p) / (p - 128)⌉ + 1` frames — `⌈n / 128⌉ + 1` in the
unclamped regime `n ≥ 256`.  Meaningless for `n ≤ 128`, where scipy
raises instead. -/
def stft_frames (n : ℕ) : ℕ :=
  let p := stft_nperseg n
  let s := p - 128
  let val := n + 2 * (p / 2) - p
  (val + s - 1) / s + 1

/-- Length of the array computed by the STFT `feature_map` entry named
`f` on the spectrogram of a length-`n` signal: `np.mean`/`np.std` along
`axis=1` give one scalar per frequency row; each librosa descriptor gives
a matrix with one column per frame, of which row `[0]` is kept, hence one
scalar per time frame. -/
def stft_seg_len (n : ℕ) (f : String) : ℕ :=
  if f = "mean" ∨ f = "std" then stft_bins n else stft_frames n

/-- Shape-level model of `extract_stft_features(data, features_to_extract)`
for a signal of length `n`: the length of the returned vector.  For
`n ≤ 128` the clamped `nperseg` is not larger than the explicit
`noverlap = 128` and `scipy.signal.stft` raises
`ValueError: noverlap must be less than nperseg` before any feature is
computed — modelled as `none`.  Otherwise an empty spec (Python-falsy)
selects the default tuple; names outside the dispatch table are dropped
(`if feat in feature_map`); if nothing survives the filter,
`np.concatenate` on the empty list raises — also `none`. -/
def extract_stft_features_len (n : ℕ) (features_to_extract : List String) :
    Option ℕ :=
  if n ≤ 128 then none
  else
    let feats := if features_to_extract.isEmpty then stft_feature_names
                 else features_to_extract
    let kept := feats.filter (fun f => decide (f ∈ stft_feature_names))
    if kept.isEmpty then none
    else some ((kept.map (stft_seg_len n)).sum)

/-- Value-level model of the dispatch-and-concatenate stage of
`extract_stft_features` (source lines: the `feature_map` comprehension
and `np.concatenate`), for a signal scipy accepts.  Each dispatch-table
lambda closes over the already-computed `mag_spectrogram` alone, so for a
fixed signal the array it produces is a fixed per-statistic segment;
`segs f` stands for that array.  The spec handling is the source's: an
empty spec selects the default tuple, unsupported names are dropped, and
an empty comprehension makes `np.concatenate` raise (`none`). -/
def extract_stft_features_segs (segs : String → List ℚ)
    (features_to_extract : List String) : Option (List ℚ) :=
  let feats := if features_to_extract.isEmpty then stft_feature_names
               else features_to_extract
  let kept := feats.filter (fun f => decide (f ∈ stft_feature_names))
  if kept.isEmpty then none
  else some ((kept.map segs).flatten)

/-- One cell of the tabular dataset: a signal, or a feature vector once
materialised as a list (`.apply(list)`). -/
abbrev Cell := List ℚ

/-- A pandas DataFrame modelled as an ordered association list of named
columns; each column is the list of its cells in row order. -/
structure DF where
  cols : List (String × List Cell)

/-- Column names in order (`df.columns`). -/
def DF.names (df : DF) : List String := df.cols.map Prod.fst

/-- Membership test `col in df.columns`. -/
def DF.hasCol (df : DF) (c : String) : Bool := decide (c ∈ df.names)

/-- Read a column (`df[col]`); the empty column on a missing name (the
sources only read columns they know to be present). -/
def DF.getCol (df : DF) (c : String) : List Cell :=
  ((df.cols.find? (fun p => p.1 = c)).map Prod.snd).getD []

/-- Column assignment `df[col] = v`: replace an existing column in place,
otherwise append a new column at the end — pandas' assignment semantics. -/
def DF.setCol (df : DF) (c : String) (v : List Cell) : DF :=
  if df.hasCol c then
    ⟨df.cols.map (fun p => if p.1 = c then (c, v) else p)⟩
  else ⟨df.cols ++ [(c, v)]⟩

/-- The earlier (third code cell) definition of
`apply_feature_extraction(df, columns)`: for every listed name present in
the frame, store the per-row STFT and DWT feature vectors, materialised
as lists, under `stft_<col>` and `dwt_<col>`.  The applier is embedded
parametrically in the two per-cell extraction functions (the source binds
them to `extract_stft_features` and `extract_wavelet_features`, whose
per-signal output is modelled above); every claim about the applier
concerns only this column plumbing. -/
def apply_feature_extraction_v1 (fstft fdwt : Cell → Cell) (df : DF)
    (columns : List String) : DF :=
  columns.foldl (fun d col =>
    if d.hasCol col then
      let d1 := d.setCol ("stft_" ++ col) ((d.getCol col).map fstft)
      d1.setCol ("dwt_" ++ col) ((d1.getCol col).map fdwt)
    else d) df

/-- The later, annotated definition of `apply_feature_extraction` (the
final cell), which overrides the earlier one; its body is line-identical
to `apply_feature_extraction_v1`'s. -/
def apply_feature_extraction (fstft fdwt : Cell → Cell) (df : DF)
    (columns : List String) : DF :=
  columns.foldl (fun d col =>
    if d.hasCol col then
      let d1 := d.setCol ("stft_" ++ col) ((d.getCol col).map fstft)
      d1.setCol ("dwt_" ++ col) ((d1.getCol col).map fdwt)
    else d) df

/-! Structural lemmas about the wavelet decomposition. -/

theorem wavedecAux_length (w : Wavelet) (l : ℕ) :
    ∀ a : List ℚ, (wavedecAux w l a).length = l + 1 := by
  induction l with
  | zero => intro a; rfl
  | succ l ih =>
      intro a
      simp [wavedecAux, ih, Nat.succ_eq_add_one]

theorem wavedecAux_head (w : Wavelet) (l : ℕ) :
    ∀ a : List ℚ, (wavedecAux w l a).head? = some (approxIter w l a) := by
  induction l with
  | zero => intro a; rfl
  | succ l ih =>
      intro a
      have hlen : (wavedecAux w l (dwt w a).1).length = l + 1 := wavedecAux_length w l _
      have hne : wavedecAux w l (dwt w a).1 ≠ [] := by
        intro h; rw [h] at hlen; simp at hlen
      simp [wavedecAux, approxIter, List.head?_append_of_ne_nil _ hne, ih]

/-! Zero-preservation of the decomposition and of every statistic. -/

theorem getD_eq_zero_of_all_zero :
    ∀ (x : List ℚ), (∀ v ∈ x, v = 0) → ∀ n : ℕ, x.getD n 0 = 0 := by
  intro x
  induction x with
  | nil => intro _ n; cases n <;> rfl
  | cons a t ih =>
      intro h n
      cases n with
      | zero => exact h a (List.mem_cons_self a t)
      | succ n => exact ih (fun v hv => h v (List.mem_cons_of_mem a hv)) n

theorem extAt_eq_zero_of_all_zero (x : List ℚ) (h : ∀ v ∈ x, v = 0) (i : ℤ) :
    extAt x i = 0 :=
  getD_eq_zero_of_all_zero x h _

theorem convDown_eq_zero_of_all_zero (h x : List ℚ) (hx : ∀ v ∈ x, v = 0) (k : ℕ) :
    convDown h x k = 0 := by
  unfold convDown
  apply List.sum_eq_zero
  intro y hy
  rcases List.mem_map.mp hy with ⟨j, _, rfl⟩
  rw [extAt_eq_zero_of_all_zero x hx, mul_zero]

theorem dwt_fst_all_zero (w : Wavelet) (x : List ℚ) (hx : ∀ v ∈ x, v = 0) :
    ∀ v ∈ (dwt w x).1, v = 0 := by
  intro v hv
  rcases List.mem_map.mp hv with ⟨k, _, rfl⟩
  exact convDown_eq_zero_of_all_zero _ x hx k

theorem dwt_snd_all_zero (w : Wavelet) (x : List ℚ) (hx : ∀ v ∈ x, v = 0) :
    ∀ v ∈ (dwt w x).2, v = 0 := by
  intro v hv
  rcases List.mem_map.mp hv with ⟨k, _, rfl⟩
  exact convDown_eq_zero_of_all_zero _ x hx k

theorem wavedecAux_all_zero (w : Wavelet) (l : ℕ) :
    ∀ a : List ℚ, (∀ v ∈ a, v = 0) →
      ∀ c ∈ wavedecAux w l a, ∀ v ∈ c, v = 0 := by
  induction l with
  | zero =>
      intro a ha c hc
      simp [wavedecAux] at hc
      subst hc; exact ha
  | succ l ih =>
      intro a ha c hc
      simp [wavedecAux] at hc
      rcases hc with hc | hc
      · exact ih _ (dwt_fst_all_zero w a ha) c hc
      · subst hc; exact dwt_snd_all_zero w a ha

theorem meanQ_eq_zero_of_all_zero (x : List ℚ) (h : ∀ v ∈ x, v = 0) :
    meanQ x = 0 := by
  unfold meanQ
  rw [List.sum_eq_zero h, zero_div]

theorem rat_sqrt_zero : Rat.sqrt 0 = 0 := by decide

theorem stdQ_eq_zero_of_all_zero (x : List ℚ) (h : ∀ v ∈ x, v = 0) :
    stdQ x = 0 := by
  unfold stdQ
  have : meanQ (x.map (fun v => (v - meanQ x) ^ 2)) = 0 := by
    apply meanQ_eq_zero_of_all_zero
    intro v hv
    rcases List.mem_map.mp hv with ⟨u, hu, rfl⟩
    rw [h u hu, meanQ_eq_zero_of_all_zero x h]
    norm_num
  rw [this, rat_sqrt_zero]

theorem mem_insertSorted (a v : ℚ) :
    ∀ l : List ℚ, v ∈ insertSorted a l → v = a ∨ v ∈ l := by
  intro l
  induction l with
  | nil => intro h; simp [insertSorted] at h; exact Or.inl h
  | cons b t ih =>
      intro h
      simp only [insertSorted] at h
      split at h
      · rcases List.mem_cons.mp h with h | h
        · exact Or.inl h
        · exact Or.inr h
      · rcases List.mem_cons.mp h with h | h
        · exact Or.inr (h ▸ List.mem_cons_self b t)
        · rcases ih h with h | h
          · exact Or.inl h
          · exact Or.inr (List.mem_cons_of_mem b h)

theorem sortQ_all_zero (x : List ℚ) (h : ∀ v ∈ x, v = 0) :
    ∀ v ∈ sortQ x, v = 0 := by
  induction x with
  | nil => intro v hv; simp [sortQ] at hv
  | cons a t ih =>
      intro v hv
      rcases mem_insertSorted a v (sortQ t) hv with hv | hv
      · exact hv ▸ h a (List.mem_cons_self a t)
      · exact ih (fun u hu => h u (List.mem_cons_of_mem a hu)) v hv

theorem medianQ_eq_zero_of_all_zero (x : List ℚ) (h : ∀ v ∈ x, v = 0) :
    medianQ x = 0 := by
  unfold medianQ
  have hz := sortQ_all_zero x h
  have hg : ∀ n : ℕ, (sortQ x).getD n 0 = 0 := getD_eq_zero_of_all_zero _ hz
  simp only [hg]
  split
  · rfl
  · split
    · rfl
    · norm_num

theorem foldl_max_zero : ∀ t : List ℚ, (∀ v ∈ t, v = 0) → t.foldl max 0 = 0 := by
  intro t
  induction t with
  | nil => intro _; rfl
  | cons b t ih =>
      intro h
      have hb : b = 0 := h b (List.mem_cons_self b t)
      simp only [List.foldl, hb, max_self]
      exact ih (fun v hv => h v (List.mem_cons_of_mem b hv))

theorem foldl_min_zero : ∀ t : List ℚ, (∀ v ∈ t, v = 0) → t.foldl min 0 = 0 := by
  intro t
  induction t with
  | nil => intro _; rfl
  | cons b t ih =>
      intro h
      have hb : b = 0 := h b (List.mem_cons_self b t)
      simp only [List.foldl, hb, min_self]
      exact ih (fun v hv => h v (List.mem_cons_of_mem b hv))

theorem maxQ_eq_zero_of_all_zero (x : List ℚ) (h : ∀ v ∈ x, v = 0) :
    maxQ x = 0 := by
  cases x with
  | nil => rfl
  | cons a t =>
      have ha : a = 0 := h a (List.mem_cons_self a t)
      simp only [maxQ, ha]
      exact foldl_max_zero t (fun v hv => h v (List.mem_cons_of_mem a hv))

theorem minQ_eq_zero_of_all_zero (x : List ℚ) (h : ∀ v ∈ x, v = 0) :
    minQ x = 0 := by
  cases x with
  | nil => rfl
  | cons a t =>
      have ha : a = 0 := h a (List.mem_cons_self a t)
      simp only [minQ, ha]
      exact foldl_min_zero t (fun v hv => h v (List.mem_cons_of_mem a hv))

theorem energyQ_eq_zero_of_all_zero (x : List ℚ) (h : ∀ v ∈ x, v = 0) :
    energyQ x = 0 := by
  unfold energyQ
  apply List.sum_eq_zero
  intro y hy
  rcases List.mem_map.mp hy with ⟨u, hu, rfl⟩
  rw [h u hu, mul_zero]

theorem rmsQ_eq_zero_of_all_zero (x : List ℚ) (h : ∀ v ∈ x, v = 0) :
    rmsQ x = 0 := by
  unfold rmsQ
  have : meanQ (x.map (fun v => v * v)) = 0 := by
    apply meanQ_eq_zero_of_all_zero
    intro v hv
    rcases List.mem_map.mp hv with ⟨u, hu, rfl⟩
    rw [h u hu, mul_zero]
  rw [this, rat_sqrt_zero]

theorem crest_factor_eq_zero_of_all_zero (x : List ℚ) (h : ∀ v ∈ x, v = 0) :
    crest_factor x = 0 := by
  unfold crest_factor
  have : maxQ (x.map (fun v => |v|)) = 0 := by
    apply maxQ_eq_zero_of_all_zero
    intro v hv
    rcases List.mem_map.mp hv with ⟨u, hu, rfl⟩
    rw [h u hu, abs_zero]
  rw [this, zero_div]

theorem shape_factor_eq_zero_of_all_zero (x : List ℚ) (h : ∀ v ∈ x, v = 0) :
    shape_factor x = 0 := by
  unfold shape_factor
  rw [rmsQ_eq_zero_of_all_zero x h, zero_div]

/-! Dispatch-table lemmas. -/

theorem mem_wavelet_names_isSome (f : String) (h : f ∈ wavelet_feature_names) :
    (feature_map f).isSome = true := by
  simp only [wavelet_feature_names, List.mem_cons, List.mem_singleton] at h
  rcases h with rfl | rfl | rfl | rfl | rfl | rfl | rfl | rfl | rfl | h
  all_goals first
    | rfl
    | simp at h

theorem feature_map_eq_none_of_not_mem (f : String)
    (h : f ∉ wavelet_feature_names) : feature_map f = none := by
  unfold feature_map
  split_ifs with h1 h2 h3 h4 h5 h6 h7 h8 h9
  all_goals first
    | rfl
    | (exfalso; apply h; simp [wavelet_feature_names, *])

theorem filterMap_eq_map_statOf (c : List ℚ) :
    ∀ spec : List String, (∀ f ∈ spec, f ∈ wavelet_feature_names) →
      spec.filterMap (fun f => (feature_map f).map (fun g => g c))
        = spec.map (fun f => statOf f c) := by
  intro spec
  induction spec with
  | nil => intro _; rfl
  | cons f t ih =>
      intro h
      have hf : (feature_map f).isSome = true :=
        mem_wavelet_names_isSome f (h f (List.mem_cons_self f t))
      rcases Option.isSome_iff_exists.mp hf with ⟨g, hg⟩
      have ht := ih (fun u hu => h u (List.mem_cons_of_mem f hu))
      simp [List.filterMap_cons, hg, ht, statOf]

theorem length_flatten_map (g : List ℚ → List ℚ) (k : ℕ)
    (hg : ∀ c, (g c).length = k) :
    ∀ cs : List (List ℚ), ((cs.map g).flatten).length = cs.length * k := by
  intro cs
  induction cs with
  | nil => simp
  | cons c t ih =>
      simp [List.flatten_cons, ih, hg, Nat.succ_mul, Nat.add_comm]

theorem flatten_map_singleton (g : List ℚ → ℚ) :
    ∀ cs : List (List ℚ), (cs.map (fun c => [g c])).flatten = cs.map g := by
  intro cs
  induction cs with
  | nil => rfl
  | cons c t ih => simp [List.flatten_cons, ih]

theorem wavedec_eq_some (w : Wavelet) (data : List ℚ) (L : ℕ)
    (h : data ≠ []) : wavedec w data L = some (wavedecAux w L data) := by
  unfold wavedec
  simp [List.isEmpty_iff, h]

/-! Positivity of the guarded denominators. -/

theorem epsilon_pos : 0 < epsilon := by norm_num [epsilon]

theorem rms_den_pos (x : List ℚ) : 0 < rmsQ x + epsilon :=
  add_pos_of_nonneg_of_pos (Rat.sqrt_nonneg _) epsilon_pos

theorem meanAbsQ_nonneg (x : List ℚ) : 0 ≤ meanAbsQ x := by
  unfold meanAbsQ meanQ
  apply div_nonneg
  · apply List.sum_nonneg
    intro a ha
    rcases List.mem_map.mp ha with ⟨u, _, rfl⟩
    exact abs_nonneg u
  · exact_mod_cast Nat.zero_le _

theorem meanAbs_den_pos (x : List ℚ) : 0 < meanAbsQ x + epsilon :=
  add_pos_of_nonneg_of_pos (meanAbsQ_nonneg x) epsilon_pos

/-! Evaluation of the default wavelet spec. -/

theorem default_wavelet_row (c : List ℚ) :
    wavelet_feature_names.filterMap
        (fun f => (feature_map f).map (fun g => g c))
      = [meanQ c, stdQ c, medianQ c, maxQ c, minQ c, maxQ c - minQ c,
         energyQ c, crest_factor c, shape_factor c] := rfl

theorem default_wavelet_row_zero (c : List ℚ) (h : ∀ v ∈ c, v = 0) :
    wavelet_feature_names.filterMap
        (fun f => (feature_map f).map (fun g => g c))
      = List.replicate 9 (0 : ℚ) := by
  rw [default_wavelet_row,
      meanQ_eq_zero_of_all_zero c h, stdQ_eq_zero_of_all_zero c h,
      medianQ_eq_zero_of_all_zero c h, maxQ_eq_zero_of_all_zero c h,
      minQ_eq_zero_of_all_zero c h, energyQ_eq_zero_of_all_zero c h,
      crest_factor_eq_zero_of_all_zero c h, shape_factor_eq_zero_of_all_zero c h,
      sub_self]
  rfl

theorem flatten_replicate_replicate (k m : ℕ) :
    (List.replicate k (List.replicate m (0 : ℚ))).flatten
      = List.replicate (k * m) 0 := by
  induction k with
  | zero => simp
  | succ k ih =>
      rw [List.replicate_succ, List.flatten_cons, ih, Nat.succ_mul,
          Nat.add_comm, ← List.replicate_add]

/-- C6: for an all-zero (degenerate) signal the wavelet extractor performs
no division by zero — both ratio statistics carry the `epsilon = 1e-10`
guard, so their denominators are strictly positive for every coefficient
array — and the crest-factor and shape-factor entries of the result are
the finite value `0`: the whole default-spec vector of an all-zero signal
is the all-zero vector of length `(L + 1) * 9`. -/
theorem claim_C6_epsilon_guard (w : Wavelet) (n L : ℕ) (hn : n ≠ 0) :
    extract_wavelet_features (List.replicate n 0) [] w L
        = some (List.replicate ((L + 1) * 9) 0)
      ∧ crest_factor (List.replicate n 0) = 0
      ∧ shape_factor (List.replicate n 0) = 0
      ∧ (∀ x : List ℚ, 0 < rmsQ x + epsilon ∧ 0 < meanAbsQ x + epsilon) := by
  have hz : ∀ v ∈ List.replicate n (0 : ℚ), v = 0 :=
    fun v hv => List.eq_of_mem_replicate hv
  have hne : List.replicate n (0 : ℚ) ≠ [] := by
    intro h
    have := congrArg List.length h
    simp at this
    exact hn this
  refine ⟨?_, crest_factor_eq_zero_of_all_zero _ hz,
          shape_factor_eq_zero_of_all_zero _ hz,
          fun x => ⟨rms_den_pos x, meanAbs_den_pos x⟩⟩
  have hcoeffs : ∀ c ∈ wavedecAux w L (List.replicate n 0), ∀ v ∈ c, v = 0 :=
    wavedecAux_all_zero w L _ hz
  unfold extract_wavelet_features
  rw [wavedec_eq_some w _ L hne]
  have hmap : (wavedecAux w L (List.replicate n 0)).map
        (fun c => wavelet_feature_names.filterMap
          (fun f => (feature_map f).map (fun g => g c)))
      = List.replicate (L + 1) (List.replicate 9 (0 : ℚ)) := by
    have h1 : ∀ b ∈ (wavedecAux w L (List.replicate n 0)).map
        (fun c => wavelet_feature_names.filterMap
          (fun f => (feature_map f).map (fun g => g c))),
        b = List.replicate 9 (0 : ℚ) := by
      intro b hb
      rcases List.mem_map.mp hb with ⟨c, hc, rfl⟩
      exact default_wavelet_row_zero c (hcoeffs c hc)
    have h2 := List.eq_replicate_of_mem h1
    rwa [List.length_map, wavedecAux_length] at h2
  simp only [Option.map_some', List.isEmpty_nil, if_pos]
  rw [hmap, flatten_replicate_replicate]

/-- Witness for C6 at the concrete signal `[0, 0, 0]` with level 4. -/
theorem claim_C6_epsilon_guard_witness :
    (3 : ℕ) ≠ 0
    ∧ (extract_wavelet_features (List.replicate 3 0) [] wtest 4
          = some (List.replicate ((4 + 1) * 9) 0)
        ∧ crest_factor (List.replicate 3 0) = 0
        ∧ shape_factor (List.replicate 3 0) = 0
        ∧ (∀ x : List ℚ, 0 < rmsQ x + epsilon ∧ 0 < meanAbsQ x + epsilon)) :=
  ⟨by decide, claim_C6_epsilon_guard wtest 3 4 (by decide)⟩

/-- C2: for a nonempty signal and a nonempty FeatureSpec drawn from the
supported DWT vocabulary, the wavelet extractor builds its vector from the
`L + 1` coefficient arrays of the decomposition (whose head is the
`L`-fold iterated approximation, the coarsest band) by concatenating, per
coefficient array in order, the spec's statistics in spec order —
level-major, statistic-minor — for a total length `(L + 1) * len(spec)`. -/
theorem claim_C2_wavelet_shape (w : Wavelet) (data : List ℚ)
    (spec : List String) (L : ℕ) (hd : data ≠ []) (hs : spec ≠ [])
    (hsup : ∀ f ∈ spec, f ∈ wavelet_feature_names) :
    ∃ coeffs, wavedec w data L = some coeffs
      ∧ coeffs.length = L + 1
      ∧ coeffs.head? = some (approxIter w L data)
      ∧ extract_wavelet_features data spec w L
          = some ((coeffs.map (fun c => spec.map (fun f => statOf f c))).flatten)
      ∧ ((coeffs.map (fun c => spec.map (fun f => statOf f c))).flatten).length
          = (L + 1) * spec.length := by
  refine ⟨wavedecAux w L data, wavedec_eq_some w data L hd,
          wavedecAux_length w L data, wavedecAux_head w L data, ?_, ?_⟩
  · unfold extract_wavelet_features
    rw [wavedec_eq_some w data L hd]
    cases spec with
    | nil => exact absurd rfl hs
    | cons f t =>
        simp only [Option.map_some', List.isEmpty_cons, if_neg, Bool.false_eq_true,
          not_false_eq_true, ite_false]
        have hm : (wavedecAux w L data).map (fun c =>
              (f :: t).filterMap (fun feat => (feature_map feat).map (fun g => g c)))
            = (wavedecAux w L data).map (fun c => (f :: t).map (fun u => statOf u c)) :=
          List.map_congr_left (fun c _ => filterMap_eq_map_statOf c (f :: t) hsup)
        rw [hm]
  · rw [length_flatten_map (fun c => spec.map fun f => statOf f c) spec.length
        (fun c => List.length_map _ _), wavedecAux_length]

/-- Witness for C2 at signal `[1]`, spec `["mean"]`, level 4. -/
theorem claim_C2_wavelet_shape_witness :
    ([(1 : ℚ)] ≠ [] ∧ (["mean"] : List String) ≠ []
      ∧ (∀ f ∈ (["mean"] : List String), f ∈ wavelet_feature_names))
    ∧ (∃ coeffs, wavedec wtest [(1 : ℚ)] 4 = some coeffs
        ∧ coeffs.length = 4 + 1
        ∧ coeffs.head? = some (approxIter wtest 4 [(1 : ℚ)])
        ∧ extract_wavelet_features [(1 : ℚ)] ["mean"] wtest 4
            = some ((coeffs.map (fun c =>
                (["mean"] : List String).map (fun f => statOf f c))).flatten)
        ∧ ((coeffs.map (fun c =>
              (["mean"] : List String).map (fun f => statOf f c))).flatten).length
            = (4 + 1) * (["mean"] : List String).length) :=
  ⟨⟨by decide, by decide, by decide⟩,
   claim_C2_wavelet_shape wtest [(1 : ℚ)] ["mean"] 4 (by decide) (by decide)
     (by decide)⟩

/-- C4: a FeatureSpec entry outside the supported vocabulary is silently
dropped: with spec `["mean", "bogus_stat"]` the wavelet extractor raises
no error and returns exactly the per-level means — the same vector as for
`["mean"]`, of length `(L + 1) * 1`. -/
theorem claim_C4_unknown_dropped (w : Wavelet) (data : List ℚ) (L : ℕ)
    (hd : data ≠ []) :
    extract_wavelet_features data ["mean", "bogus_stat"] w L
        = extract_wavelet_features data ["mean"] w L
      ∧ ∃ coeffs, wavedec w data L = some coeffs
        ∧ extract_wavelet_features data ["mean", "bogus_stat"] w L
            = some (coeffs.map meanQ)
        ∧ (coeffs.map meanQ).length = (L + 1) * 1 := by
  have hrow : ∀ c : List ℚ,
      (["mean", "bogus_stat"] : List String).filterMap
          (fun f => (feature_map f).map (fun g => g c)) = [meanQ c] :=
    fun c => rfl
  have hrow1 : ∀ c : List ℚ,
      (["mean"] : List String).filterMap
          (fun f => (feature_map f).map (fun g => g c)) = [meanQ c] :=
    fun c => rfl
  have hmain : extract_wavelet_features data ["mean", "bogus_stat"] w L
      = some ((wavedecAux w L data).map meanQ) := by
    unfold extract_wavelet_features
    rw [wavedec_eq_some w data L hd]
    simp only [Option.map_some', List.isEmpty_cons, Bool.false_eq_true,
      not_false_eq_true, ite_false]
    rw [show ((wavedecAux w L data).map (fun c =>
        (["mean", "bogus_stat"] : List String).filterMap
          (fun f => (feature_map f).map (fun g => g c))))
        = (wavedecAux w L data).map (fun c => [meanQ c]) from
      List.map_congr_left (fun c _ => hrow c)]
    rw [flatten_map_singleton meanQ]
  have hmain1 : extract_wavelet_features data ["mean"] w L
      = some ((wavedecAux w L data).map meanQ) := by
    unfold extract_wavelet_features
    rw [wavedec_eq_some w data L hd]
    simp only [Option.map_some', List.isEmpty_cons, Bool.false_eq_true,
      not_false_eq_true, ite_false]
    rw [show ((wavedecAux w L data).map (fun c =>
        (["mean"] : List String).filterMap
          (fun f => (feature_map f).map (fun g => g c))))
        = (wavedecAux w L data).map (fun c => [meanQ c]) from
      List.map_congr_left (fun c _ => hrow1 c)]
    rw [flatten_map_singleton meanQ]
  refine ⟨hmain.trans hmain1.symm, wavedecAux w L data,
          wavedec_eq_some w data L hd, hmain, ?_⟩
  rw [List.length_map, wavedecAux_length, Nat.mul_one]

/-- Witness for C4 at signal `[1]`, level 4. -/
theorem claim_C4_unknown_dropped_witness :
    [(1 : ℚ)] ≠ []
    ∧ (extract_wavelet_features [(1 : ℚ)] ["mean", "bogus_stat"] wtest 4
          = extract_wavelet_features [(1 : ℚ)] ["mean"] wtest 4
        ∧ ∃ coeffs, wavedec wtest [(1 : ℚ)] 4 = some coeffs
          ∧ extract_wavelet_features [(1 : ℚ)] ["mean", "bogus_stat"] wtest 4
              = some (coeffs.map meanQ)
          ∧ (coeffs.map meanQ).length = (4 + 1) * 1) :=
  ⟨by decide, claim_C4_unknown_dropped wtest [(1 : ℚ)] 4 (by decide)⟩

/-! Helper equations for the extractors. -/

theorem extract_wavelet_eq (w : Wavelet) (data : List ℚ) (spec : List String)
    (L : ℕ) (hd : data ≠ []) (hs : spec ≠ []) :
    extract_wavelet_features data spec w L
      = some (((wavedecAux w L data).map (fun c =>
          spec.filterMap (fun f => (feature_map f).map (fun g => g c)))).flatten) := by
  unfold extract_wavelet_features
  rw [wavedec_eq_some w data L hd]
  cases spec with
  | nil => exact absurd rfl hs
  | cons f t =>
      simp only [Option.map_some', List.isEmpty_cons, Bool.false_eq_true,
        not_false_eq_true, ite_false]

theorem filterMap_eq_filter_map (c : List ℚ) : ∀ spec : List String,
    spec.filterMap (fun f => (feature_map f).map (fun g => g c))
      = (spec.filter (fun f => decide (f ∈ wavelet_feature_names))).map
          (fun f => statOf f c) := by
  intro spec
  induction spec with
  | nil => rfl
  | cons f t ih =>
      by_cases hf : f ∈ wavelet_feature_names
      · rcases Option.isSome_iff_exists.mp (mem_wavelet_names_isSome f hf)
          with ⟨g, hg⟩
        simp [List.filterMap_cons, hg, List.filter_cons, hf, ih, statOf]
      · have hnone := feature_map_eq_none_of_not_mem f hf
        simp [List.filterMap_cons, hnone, List.filter_cons, hf, ih]

/-- C3 is refuted by the code: a signal far too short for the configured
decomposition depth does not make `extract_wavelet_features` fail — pywt
only warns about boundary effects and computes all levels — so the
length-one signal at level 4 yields a full 45-entry default-spec vector
instead of a length-mismatch error. -/
theorem claim_C3_counterexample :
    (extract_wavelet_features [(1 : ℚ)] [] wtest 4).isSome = true
    ∧ ((extract_wavelet_features [(1 : ℚ)] [] wtest 4).getD []).length = 45 := by
  decide

/-- C3 amended: the wavelet extractor fails only on an empty signal; every
nonempty signal — however short for the chosen wavelet and depth — is
decomposed in full by symmetric extension and produces the complete
`(L + 1) * len(spec)` vector (no silent truncation of the vector, but
also no error). -/
theorem claim_C3_short_signal_no_error (w : Wavelet) (data : List ℚ)
    (spec : List String) (L : ℕ) (hd : data ≠ []) (hs : spec ≠ [])
    (hsup : ∀ f ∈ spec, f ∈ wavelet_feature_names) :
    (∀ (d : List ℚ) (s : List String),
        extract_wavelet_features d s w L = none ↔ d = [])
    ∧ ∃ v, extract_wavelet_features data spec w L = some v
        ∧ v.length = (L + 1) * spec.length := by
  constructor
  · intro d s
    unfold extract_wavelet_features wavedec
    constructor
    · intro h
      by_cases hd' : d.isEmpty
      · exact List.isEmpty_iff.mp hd'
      · simp [hd'] at h
    · intro h
      subst h
      rfl
  · refine ⟨_, extract_wavelet_eq w data spec L hd hs, ?_⟩
    have hlen : ∀ c : List ℚ,
        (spec.filterMap (fun f => (feature_map f).map (fun g => g c))).length
          = spec.length := by
      intro c
      rw [filterMap_eq_map_statOf c spec hsup, List.length_map]
    rw [length_flatten_map _ spec.length hlen, wavedecAux_length]

/-- Witness for the amended C3 at signal `[1]`, spec `["mean"]`, level 4. -/
theorem claim_C3_short_signal_no_error_witness :
    ([(1 : ℚ)] ≠ [] ∧ (["mean"] : List String) ≠ []
      ∧ (∀ f ∈ (["mean"] : List String), f ∈ wavelet_feature_names))
    ∧ ((∀ (d : List ℚ) (s : List String),
          extract_wavelet_features d s wtest 4 = none ↔ d = [])
        ∧ ∃ v, extract_wavelet_features [(1 : ℚ)] ["mean"] wtest 4 = some v
            ∧ v.length = (4 + 1) * (["mean"] : List String).length) :=
  ⟨⟨by decide, by decide, by decide⟩,
   claim_C3_short_signal_no_error wtest [(1 : ℚ)] ["mean"] 4 (by decide)
     (by decide) (by decide)⟩

/-- C9: a nonempty FeatureSpec with no supported name makes the STFT
extractor fail (`np.concatenate` of an empty list raises) while the
wavelet extractor returns the empty vector. -/
theorem claim_C9_no_supported_names (n : ℕ) (data : List ℚ) (w : Wavelet)
    (L : ℕ) (spec : List String) (hne : spec ≠ [])
    (hstft : ∀ f ∈ spec, f ∉ stft_feature_names)
    (hdwt : ∀ f ∈ spec, f ∉ wavelet_feature_names) (hd : data ≠ []) :
    extract_stft_features_len n spec = none
    ∧ extract_wavelet_features data spec w L = some [] := by
  constructor
  · unfold extract_stft_features_len
    cases spec with
    | nil => exact absurd rfl hne
    | cons f t =>
        have hfil : (f :: t).filter (fun u => decide (u ∈ stft_feature_names))
            = [] := by
          rw [List.filter_eq_nil_iff]
          intro a ha
          simp [hstft a ha]
        simp only [List.isEmpty_cons, Bool.false_eq_true, not_false_eq_true,
          ite_false, hfil]
        by_cases hn : n ≤ 128 <;> simp [hn]
  · rw [extract_wavelet_eq w data spec L hd hne]
    have hrow : ∀ c : List ℚ,
        spec.filterMap (fun f => (feature_map f).map (fun g => g c)) = [] := by
      intro c
      rw [List.filterMap_eq_nil_iff]
      intro a ha
      rw [feature_map_eq_none_of_not_mem a (hdwt a ha)]
      rfl
    simp [hrow]

/-- Witness for C9 at spec `["bogus_stat"]`. -/
theorem claim_C9_no_supported_names_witness :
    ((["bogus_stat"] : List String) ≠ []
      ∧ (∀ f ∈ (["bogus_stat"] : List String), f ∉ stft_feature_names)
      ∧ (∀ f ∈ (["bogus_stat"] : List String), f ∉ wavelet_feature_names)
      ∧ [(1 : ℚ)] ≠ [])
    ∧ (extract_stft_features_len 300 ["bogus_stat"] = none
        ∧ extract_wavelet_features [(1 : ℚ)] ["bogus_stat"] wtest 4 = some []) :=
  ⟨⟨by decide, by decide, by decide, by decide⟩,
   claim_C9_no_supported_names 300 [(1 : ℚ)] wtest 4 ["bogus_stat"] (by decide)
     (by decide) (by decide) (by decide)⟩

/-- C1 is refuted by the code: with the same supported spec
`["spectral_centroid"]`, a length-1000 signal yields 9 output entries
while a length-2000 signal yields 17 (both lengths are in scipy's
unclamped regime `n ≥ 256`), because the librosa frame-based descriptors
contribute one value per STFT time frame and the frame count grows with
the signal — so the STFT output length is not invariant across signal
lengths. -/
theorem claim_C1_counterexample :
    extract_stft_features_len 1000 ["spectral_centroid"] = some 9
    ∧ extract_stft_features_len 2000 ["spectral_centroid"] = some 17
    ∧ extract_stft_features_len 1000 ["spectral_centroid"]
        ≠ extract_stft_features_len 2000 ["spectral_centroid"] := by
  decide

/-- C1 amended: signals of length at most 128 make `scipy.signal.stft`
raise (`noverlap must be less than nperseg` after `nperseg` is clamped to
the signal length), so no vector is returned at all; for longer signals
the output length is the sum, over the spec's entries, of a per-statistic
segment length — `min(n, 256)/2 + 1` bins for `mean` and `std` and the
signal-dependent frame count for the librosa descriptors.  The claimed
`len(spec) × 129` form, invariant across signal lengths, holds only for
specs drawn from `{mean, std}` and signals of length at least 256 (below
256 even the bin count depends on the signal length). -/
theorem claim_C1_stft_length (n : ℕ) (spec : List String) (hn : 128 < n)
    (hs : spec ≠ []) (hsup : ∀ f ∈ spec, f ∈ stft_feature_names) :
    (∀ k ≤ 128, ∀ s : List String, extract_stft_features_len k s = none)
    ∧ extract_stft_features_len n spec = some ((spec.map (stft_seg_len n)).sum)
    ∧ ((∀ f ∈ spec, f = "mean" ∨ f = "std") →
        ∀ m, 256 ≤ m →
          extract_stft_features_len m spec = some (spec.length * 129)) := by
  have main : ∀ k, 128 < k → extract_stft_features_len k spec
      = some ((spec.map (stft_seg_len k)).sum) := by
    intro k hk
    unfold extract_stft_features_len
    rw [if_neg (by omega)]
    cases spec with
    | nil => exact absurd rfl hs
    | cons f t =>
        have hfil : (f :: t).filter (fun u => decide (u ∈ stft_feature_names))
            = f :: t :=
          List.filter_eq_self.mpr (fun a ha => by simp [hsup a ha])
        simp only [List.isEmpty_cons, Bool.false_eq_true, not_false_eq_true,
          ite_false, hfil]
  refine ⟨?_, main n hn, fun hms m hm => ?_⟩
  · intro k hk s
    unfold extract_stft_features_len
    rw [if_pos hk]
  · rw [main m (by omega)]
    congr 1
    have hbins : stft_bins m = 129 := by
      unfold stft_bins stft_nperseg
      rw [min_eq_right hm]
    have hconst : spec.map (stft_seg_len m) = spec.map (fun _ => 129) :=
      List.map_congr_left (fun a ha => by
        unfold stft_seg_len
        rcases hms a ha with h | h <;> simp [h, hbins])
    rw [hconst, List.map_const', List.sum_replicate, smul_eq_mul]

/-- Witness for the amended C1 at spec `["mean", "std"]`, signal
length 300. -/
theorem claim_C1_stft_length_witness :
    ((128 : ℕ) < 300 ∧ (["mean", "std"] : List String) ≠ []
      ∧ (∀ f ∈ (["mean", "std"] : List String), f ∈ stft_feature_names))
    ∧ ((∀ k ≤ 128, ∀ s : List String, extract_stft_features_len k s = none)
        ∧ extract_stft_features_len 300 ["mean", "std"]
            = some (((["mean", "std"] : List String).map (stft_seg_len 300)).sum)
        ∧ ((∀ f ∈ (["mean", "std"] : List String), f = "mean" ∨ f = "std") →
            ∀ m, 256 ≤ m →
              extract_stft_features_len m ["mean", "std"]
                = some ((["mean", "std"] : List String).length * 129))) :=
  ⟨⟨by decide, by decide, by decide⟩,
   claim_C1_stft_length 300 ["mean", "std"] (by decide) (by decide)
     (by decide)⟩

/-- C8: both extractors are deterministic — they are pure functions of
their arguments, so identical signal and configuration give identical
output vectors. -/
theorem claim_C8_determinism (n₁ n₂ : ℕ) (d₁ d₂ : List ℚ)
    (s₁ s₂ : List String) (w₁ w₂ : Wavelet) (L₁ L₂ : ℕ)
    (hn : n₁ = n₂) (hd : d₁ = d₂) (hs : s₁ = s₂) (hw : w₁ = w₂)
    (hL : L₁ = L₂) :
    extract_wavelet_features d₁ s₁ w₁ L₁ = extract_wavelet_features d₂ s₂ w₂ L₂
    ∧ extract_stft_features_len n₁ s₁ = extract_stft_features_len n₂ s₂ := by
  subst hn
  subst hd
  subst hs
  subst hw
  subst hL
  exact ⟨rfl, rfl⟩

/-- Witness for C8 at a concrete repeated call. -/
theorem claim_C8_determinism_witness :
    ((5 : ℕ) = 5 ∧ [(1 : ℚ), 2] = [(1 : ℚ), 2]
      ∧ (["mean"] : List String) = ["mean"] ∧ wtest = wtest ∧ (2 : ℕ) = 2)
    ∧ (extract_wavelet_features [(1 : ℚ), 2] ["mean"] wtest 2
          = extract_wavelet_features [(1 : ℚ), 2] ["mean"] wtest 2
        ∧ extract_stft_features_len 5 ["mean"] = extract_stft_features_len 5 ["mean"]) :=
  ⟨⟨rfl, rfl, rfl, rfl, rfl⟩,
   claim_C8_determinism 5 5 [(1 : ℚ), 2] [(1 : ℚ), 2] ["mean"] ["mean"]
     wtest wtest 2 2 rfl rfl rfl rfl rfl⟩

/-- C7: output layout tracks FeatureSpec iteration order, with each
statistic's segment unchanged under reordering.  For the STFT extractor,
whose per-statistic arrays are fixed functions of the magnitude
spectrogram alone (`segs`), the output vector is exactly the
concatenation of those unchanged segments over the spec's supported names
in spec order, so a permuted spec rearranges the same segments in the
permuted order (and the output length, a permutation-invariant sum of
unchanged per-statistic segment lengths, is preserved).  For the wavelet
extractor the vector is, per decomposition level, the map of the
spec-independent per-statistic reductions over the spec's supported names
in spec order, with the same permutation consequence. -/
theorem claim_C7_spec_order (w : Wavelet) (data : List ℚ) (L n : ℕ)
    (segs : String → List ℚ) (s t : List String) (hs : s ≠ [])
    (hperm : t.Perm s) :
    (extract_stft_features_segs segs t
        = (if (t.filter (fun f => decide (f ∈ stft_feature_names))).isEmpty
            then none
            else some (((t.filter
                (fun f => decide (f ∈ stft_feature_names))).map segs).flatten))
      ∧ (t.filter (fun f => decide (f ∈ stft_feature_names))).Perm
          (s.filter (fun f => decide (f ∈ stft_feature_names)))
      ∧ extract_stft_features_len n t = extract_stft_features_len n s)
    ∧ ((∀ coeffs, wavedec w data L = some coeffs →
          extract_wavelet_features data t w L
            = some ((coeffs.map (fun c =>
                (t.filter (fun f => decide (f ∈ wavelet_feature_names))).map
                  (fun f => statOf f c))).flatten))
      ∧ (t.filter (fun f => decide (f ∈ wavelet_feature_names))).Perm
          (s.filter (fun f => decide (f ∈ wavelet_feature_names)))) := by
  have ht : t ≠ [] := by
    intro h
    subst h
    exact hs hperm.nil_eq.symm
  refine ⟨⟨?_, hperm.filter _, ?_⟩, ?_, hperm.filter _⟩
  · cases t with
    | nil => exact absurd rfl ht
    | cons a t1 => rfl
  · cases t with
    | nil => exact absurd rfl ht
    | cons a t1 =>
        cases s with
        | nil => exact absurd rfl hs
        | cons b s1 =>
            unfold extract_stft_features_len
            by_cases hn : n ≤ 128
            · rw [if_pos hn, if_pos hn]
            · rw [if_neg hn, if_neg hn]
              simp only [List.isEmpty_cons, Bool.false_eq_true,
                not_false_eq_true, ite_false]
              have hk : ((a :: t1).filter
                    (fun u => decide (u ∈ stft_feature_names))).Perm
                  ((b :: s1).filter
                    (fun u => decide (u ∈ stft_feature_names))) :=
                hperm.filter _
              by_cases hkb : (a :: t1).filter
                  (fun u => decide (u ∈ stft_feature_names)) = []
              · have hsb : (b :: s1).filter
                    (fun u => decide (u ∈ stft_feature_names)) = [] := by
                  have h2 := hk
                  rw [hkb] at h2
                  exact h2.nil_eq.symm
                rw [hkb, hsb]
              · have hsb : (b :: s1).filter
                    (fun u => decide (u ∈ stft_feature_names)) ≠ [] := by
                  intro h0
                  rw [h0] at hk
                  exact hkb hk.eq_nil
                rw [if_neg (by simp [List.isEmpty_iff, hkb]),
                    if_neg (by simp [List.isEmpty_iff, hsb])]
                exact congrArg some ((hk.map (stft_seg_len n)).sum_eq)
  · intro coeffs hco
    have hd : data ≠ [] := by
      intro hdd
      subst hdd
      simp [wavedec] at hco
    have hco' : coeffs = wavedecAux w L data := by
      rw [wavedec_eq_some w data L hd] at hco
      exact (Option.some_inj.mp hco).symm
    subst hco'
    rw [extract_wavelet_eq w data t L hd ht]
    have hm : (wavedecAux w L data).map (fun c =>
          t.filterMap (fun f => (feature_map f).map (fun g => g c)))
        = (wavedecAux w L data).map (fun c =>
            (t.filter (fun f => decide (f ∈ wavelet_feature_names))).map
              (fun f => statOf f c)) :=
      List.map_congr_left (fun c _ => filterMap_eq_filter_map c t)
    rw [hm]

/-- Witness for C7 at spec `["mean", "std"]` against its reversal, with
concrete per-statistic STFT segments. -/
theorem claim_C7_spec_order_witness :
    ((["mean", "std"] : List String) ≠ []
      ∧ (["std", "mean"] : List String).Perm ["mean", "std"])
    ∧ ((extract_stft_features_segs (fun _ => [(1 : ℚ), 2]) ["std", "mean"]
          = (if ((["std", "mean"] : List String).filter
                (fun f => decide (f ∈ stft_feature_names))).isEmpty
              then none
              else some ((((["std", "mean"] : List String).filter
                  (fun f => decide (f ∈ stft_feature_names))).map
                    (fun _ => [(1 : ℚ), 2])).flatten))
        ∧ ((["std", "mean"] : List String).filter
              (fun f => decide (f ∈ stft_feature_names))).Perm
            ((["mean", "std"] : List String).filter
              (fun f => decide (f ∈ stft_feature_names)))
        ∧ extract_stft_features_len 300 ["std", "mean"]
            = extract_stft_features_len 300 ["mean", "std"])
      ∧ ((∀ coeffs, wavedec wtest [(1 : ℚ)] 2 = some coeffs →
            extract_wavelet_features [(1 : ℚ)] ["std", "mean"] wtest 2
              = some ((coeffs.map (fun c =>
                  ((["std", "mean"] : List String).filter
                      (fun f => decide (f ∈ wavelet_feature_names))).map
                    (fun f => statOf f c))).flatten))
        ∧ ((["std", "mean"] : List String).filter
              (fun f => decide (f ∈ wavelet_feature_names))).Perm
            ((["mean", "std"] : List String).filter
              (fun f => decide (f ∈ wavelet_feature_names))))) :=
  ⟨⟨by decide, by decide⟩,
   claim_C7_spec_order wtest [(1 : ℚ)] 2 300 (fun _ => [(1 : ℚ), 2])
     ["mean", "std"] ["std", "mean"] (by decide) (by decide)⟩

/-! Derived-column-name facts. -/

theorem stft_append_inj {a b : String} (h : "stft_" ++ a = "stft_" ++ b) :
    a = b := by
  have h2 : ("stft_" ++ a).data = ("stft_" ++ b).data := by rw [h]
  simp [String.data_append] at h2
  exact String.ext h2

theorem dwt_append_inj {a b : String} (h : "dwt_" ++ a = "dwt_" ++ b) :
    a = b := by
  have h2 : ("dwt_" ++ a).data = ("dwt_" ++ b).data := by rw [h]
  simp [String.data_append] at h2
  exact String.ext h2

theorem stft_append_ne_dwt_append (a b : String) :
    "stft_" ++ a ≠ "dwt_" ++ b := by
  intro h
  have h2 : ("stft_" ++ a).data = ("dwt_" ++ b).data := by rw [h]
  simp [String.data_append] at h2

theorem stft_append_ne_self (a : String) : "stft_" ++ a ≠ a := by
  intro h
  have h2 : ("stft_" ++ a).length = a.length := by rw [h]
  simp [String.length_append] at h2
  exact absurd h2 (by decide)

theorem dwt_append_ne_self (a : String) : "dwt_" ++ a ≠ a := by
  intro h
  have h2 : ("dwt_" ++ a).length = a.length := by rw [h]
  simp [String.length_append] at h2
  exact absurd h2 (by decide)

/-! Access lemmas for the DataFrame model. -/

theorem hasCol_true_iff (df : DF) (c : String) :
    df.hasCol c = true ↔ c ∈ df.names := by
  simp [DF.hasCol]

theorem hasCol_false_iff (df : DF) (c : String) :
    df.hasCol c = false ↔ c ∉ df.names := by
  simp [DF.hasCol]

theorem names_setCol_of_hasCol (df : DF) (c : String) (v : List Cell)
    (h : df.hasCol c = true) : (df.setCol c v).names = df.names := by
  unfold DF.setCol
  rw [if_pos h]
  show (df.cols.map (fun p => if p.1 = c then (c, v) else p)).map Prod.fst
      = df.cols.map Prod.fst
  rw [List.map_map]
  apply List.map_congr_left
  intro p _
  by_cases hp : p.1 = c
  · simp [hp]
  · simp [hp]

theorem names_setCol_of_not_hasCol (df : DF) (c : String) (v : List Cell)
    (h : df.hasCol c = false) : (df.setCol c v).names = df.names ++ [c] := by
  unfold DF.setCol
  rw [if_neg (by simp [h])]
  show (df.cols ++ [(c, v)]).map Prod.fst = df.cols.map Prod.fst ++ [c]
  simp

theorem find?_replace_self (c : String) (v : List Cell) :
    ∀ l : List (String × List Cell), c ∈ l.map Prod.fst →
      (l.map (fun p => if p.1 = c then (c, v) else p)).find?
          (fun p => p.1 = c)
        = some (c, v) := by
  intro l
  induction l with
  | nil => intro h; simp at h
  | cons p t ih =>
      intro h
      by_cases hp : p.1 = c
      · simp [hp]
      · have hc : c ∈ t.map Prod.fst := by
          rcases List.mem_cons.mp h with h1 | h1
          · exact absurd h1.symm hp
          · exact h1
        simp only [List.map_cons, if_neg hp]
        rw [List.find?_cons_of_neg _ (by simp [hp])]
        exact ih hc

theorem find?_append_self (c : String) (v : List Cell) :
    ∀ l : List (String × List Cell), c ∉ l.map Prod.fst →
      (l ++ [(c, v)]).find? (fun p => p.1 = c) = some (c, v) := by
  intro l
  induction l with
  | nil => intro _; simp
  | cons p t ih =>
      intro h
      have hp : ¬p.1 = c := by
        intro hp
        exact h (List.mem_cons.mpr (Or.inl hp.symm))
      rw [List.cons_append, List.find?_cons_of_neg _ (by simp [hp])]
      exact ih (fun hc => h (List.mem_cons.mpr (Or.inr hc)))

theorem find?_replace_ne (c c' : String) (v : List Cell) (hne : c' ≠ c) :
    ∀ l : List (String × List Cell),
      (l.map (fun p => if p.1 = c then (c, v) else p)).find?
          (fun p => p.1 = c')
        = l.find? (fun p => p.1 = c') := by
  intro l
  induction l with
  | nil => rfl
  | cons p t ih =>
      by_cases hp : p.1 = c
      · have hpne : ¬p.1 = c' := fun h => hne (h ▸ hp.symm ▸ rfl)
        simp only [List.map_cons, if_pos hp]
        rw [List.find?_cons_of_neg _ (by simp; exact fun h => hne h.symm),
            List.find?_cons_of_neg _ (by simp [hpne])]
        exact ih
      · simp only [List.map_cons, if_neg hp]
        by_cases hp' : p.1 = c'
        · rw [List.find?_cons_of_pos _ (by simp [hp']),
              List.find?_cons_of_pos _ (by simp [hp'])]
        · rw [List.find?_cons_of_neg _ (by simp [hp']),
              List.find?_cons_of_neg _ (by simp [hp'])]
          exact ih

theorem find?_append_ne (c c' : String) (v : List Cell) (hne : c' ≠ c) :
    ∀ l : List (String × List Cell),
      (l ++ [(c, v)]).find? (fun p => p.1 = c')
        = l.find? (fun p => p.1 = c') := by
  intro l
  induction l with
  | nil =>
      simp only [List.nil_append]
      rw [List.find?_cons_of_neg _ (by simp; exact fun h => hne h.symm)]
  | cons p t ih =>
      by_cases hp' : p.1 = c'
      · rw [List.cons_append, List.find?_cons_of_pos _ (by simp [hp']),
            List.find?_cons_of_pos _ (by simp [hp'])]
      · rw [List.cons_append, List.find?_cons_of_neg _ (by simp [hp']),
            List.find?_cons_of_neg _ (by simp [hp'])]
        exact ih

theorem getCol_setCol_self (df : DF) (c : String) (v : List Cell) :
    (df.setCol c v).getCol c = v := by
  unfold DF.setCol
  by_cases h : df.hasCol c = true
  · rw [if_pos h]
    unfold DF.getCol
    rw [show (⟨df.cols.map (fun p => if p.1 = c then (c, v) else p)⟩ : DF).cols
        = df.cols.map (fun p => if p.1 = c then (c, v) else p) from rfl]
    rw [find?_replace_self c v df.cols ((hasCol_true_iff df c).mp h)]
    rfl
  · rw [if_neg h]
    unfold DF.getCol
    rw [show (⟨df.cols ++ [(c, v)]⟩ : DF).cols = df.cols ++ [(c, v)] from rfl]
    rw [find?_append_self c v df.cols
        ((hasCol_false_iff df c).mp (by revert h; cases df.hasCol c <;> simp))]
    rfl

theorem getCol_setCol_ne (df : DF) (c c' : String) (v : List Cell)
    (hne : c' ≠ c) : (df.setCol c v).getCol c' = df.getCol c' := by
  unfold DF.setCol
  by_cases h : df.hasCol c = true
  · rw [if_pos h]
    unfold DF.getCol
    rw [show (⟨df.cols.map (fun p => if p.1 = c then (c, v) else p)⟩ : DF).cols
        = df.cols.map (fun p => if p.1 = c then (c, v) else p) from rfl]
    rw [find?_replace_ne c c' v hne df.cols]
  · rw [if_neg h]
    unfold DF.getCol
    rw [show (⟨df.cols ++ [(c, v)]⟩ : DF).cols = df.cols ++ [(c, v)] from rfl]
    rw [find?_append_ne c c' v hne df.cols]

theorem mem_pair_flatten {name : String} : ∀ {l : List String},
    (name ∈ ((l.map (fun c => ["stft_" ++ c, "dwt_" ++ c])).flatten)
      ↔ ∃ c ∈ l, name = "stft_" ++ c ∨ name = "dwt_" ++ c) := by
  intro l
  induction l with
  | nil => simp
  | cons a t ih =>
      simp only [List.map_cons, List.flatten_cons, List.mem_append, ih,
        List.mem_cons, List.not_mem_nil, or_false]
      constructor
      · rintro ((h | h) | ⟨c, hc, h⟩)
        · exact ⟨a, Or.inl rfl, Or.inl h⟩
        · exact ⟨a, Or.inl rfl, Or.inr h⟩
        · exact ⟨c, Or.inr hc, h⟩
      · rintro ⟨c, (rfl | hc), h⟩
        · exact Or.inl (by tauto)
        · exact Or.inr ⟨c, hc, h⟩

/-- C5: for every dataset and column list (with the derived names fresh,
as the naming scheme presupposes), the applier adds, for each listed name
present in the schema and in list order, exactly the two new columns
`stft_<col>` and `dwt_<col>`, whose rows are the per-row extractor
outputs of that column's signals (row order preserved by the row-wise
map); existing columns are untouched, and no columns are added for listed
names absent from the schema. -/
theorem claim_C5_batch_applier (f g : Cell → Cell) (columns : List String) :
    ∀ df : DF,
      (∀ c ∈ columns,
        df.hasCol ("stft_" ++ c) = false ∧ df.hasCol ("dwt_" ++ c) = false
        ∧ ("stft_" ++ c) ∉ columns ∧ ("dwt_" ++ c) ∉ columns) →
      columns.Nodup →
      (apply_feature_extraction f g df columns).names
          = df.names
            ++ ((columns.filter (fun c => df.hasCol c)).map
                (fun c => ["stft_" ++ c, "dwt_" ++ c])).flatten
      ∧ (∀ name ∈ df.names,
          (apply_feature_extraction f g df columns).getCol name = df.getCol name)
      ∧ (∀ c ∈ columns, df.hasCol c = true →
          (apply_feature_extraction f g df columns).getCol ("stft_" ++ c)
              = (df.getCol c).map f
          ∧ (apply_feature_extraction f g df columns).getCol ("dwt_" ++ c)
              = (df.getCol c).map g)
      ∧ (∀ c ∈ columns, df.hasCol c = false →
          (apply_feature_extraction f g df columns).hasCol ("stft_" ++ c) = false
          ∧ (apply_feature_extraction f g df columns).hasCol ("dwt_" ++ c)
              = false) := by
  induction columns with
  | nil =>
      intro df _ _
      refine ⟨by simp [apply_feature_extraction], ?_, ?_, ?_⟩
      · intro name _
        rfl
      · intro c hc _
        simp at hc
      · intro c hc _
        simp at hc
  | cons col rest ih =>
      intro df hfr hnd
      obtain ⟨hscA, hdcA, hscNin, hdcNin⟩ := hfr col (List.mem_cons_self col rest)
      have hSC : "stft_" ++ col ∉ df.names := (hasCol_false_iff df _).mp hscA
      have hDC : "dwt_" ++ col ∉ df.names := (hasCol_false_iff df _).mp hdcA
      have hndr : rest.Nodup := (List.nodup_cons.mp hnd).2
      have hcolNin : col ∉ rest := (List.nodup_cons.mp hnd).1
      cases hpres : df.hasCol col with
      | false =>
          have happ : apply_feature_extraction f g df (col :: rest)
              = apply_feature_extraction f g df rest := by
            unfold apply_feature_extraction
            simp only [List.foldl_cons]
            rw [if_neg (by simp [hpres])]
          have hfr2 : ∀ c ∈ rest,
              df.hasCol ("stft_" ++ c) = false ∧ df.hasCol ("dwt_" ++ c) = false
              ∧ ("stft_" ++ c) ∉ rest ∧ ("dwt_" ++ c) ∉ rest := by
            intro c hc
            obtain ⟨h1, h2, h3, h4⟩ := hfr c (List.mem_cons_of_mem col hc)
            exact ⟨h1, h2, fun h => h3 (List.mem_cons_of_mem col h),
                   fun h => h4 (List.mem_cons_of_mem col h)⟩
          obtain ⟨ih1, ih2, ih3, ih4⟩ := ih df hfr2 hndr
          rw [happ]
          refine ⟨?_, ih2, ?_, ?_⟩
          · rw [ih1]
            simp [List.filter_cons, hpres]
          · intro c hc hpc
            rcases List.mem_cons.mp hc with rfl | hcr
            · exact absurd (hpres.symm.trans hpc) (by decide)
            · exact ih3 c hcr hpc
          · intro c hc hpc
            rcases List.mem_cons.mp hc with rfl | hcr
            · constructor
              · rw [hasCol_false_iff, ih1]
                intro hmem
                rcases List.mem_append.mp hmem with h | h
                · exact hSC h
                · rcases mem_pair_flatten.mp h with ⟨c', hc', hor⟩
                  have hc'r : c' ∈ rest := List.mem_of_mem_filter hc'
                  rcases hor with h' | h'
                  · exact hcolNin (stft_append_inj h' ▸ hc'r)
                  · exact stft_append_ne_dwt_append c c' h'
              · rw [hasCol_false_iff, ih1]
                intro hmem
                rcases List.mem_append.mp hmem with h | h
                · exact hDC h
                · rcases mem_pair_flatten.mp h with ⟨c', hc', hor⟩
                  have hc'r : c' ∈ rest := List.mem_of_mem_filter hc'
                  rcases hor with h' | h'
                  · exact stft_append_ne_dwt_append c' c h'.symm
                  · exact hcolNin (dwt_append_inj h' ▸ hc'r)
            · exact ih4 c hcr hpc
      | true =>
          have happ : apply_feature_extraction f g df (col :: rest)
              = apply_feature_extraction f g
                  ((df.setCol ("stft_" ++ col) ((df.getCol col).map f)).setCol
                    ("dwt_" ++ col)
                    (((df.setCol ("stft_" ++ col)
                        ((df.getCol col).map f)).getCol col).map g))
                  rest := by
            unfold apply_feature_extraction
            simp only [List.foldl_cons]
            rw [if_pos hpres]
          rw [happ]
          set d1 := df.setCol ("stft_" ++ col) ((df.getCol col).map f) with hd1def
          set d2 := d1.setCol ("dwt_" ++ col) ((d1.getCol col).map g) with hd2def
          have hd1names : d1.names = df.names ++ ["stft_" ++ col] :=
            names_setCol_of_not_hasCol df _ _ hscA
          have hd1dc : d1.hasCol ("dwt_" ++ col) = false := by
            rw [hasCol_false_iff, hd1names]
            intro hmem
            rcases List.mem_append.mp hmem with h | h
            · exact hDC h
            · simp only [List.mem_singleton] at h
              exact stft_append_ne_dwt_append col col h.symm
          have hd2names : d2.names
              = df.names ++ ["stft_" ++ col, "dwt_" ++ col] := by
            rw [hd2def, names_setCol_of_not_hasCol d1 _ _ hd1dc, hd1names,
                List.append_assoc]
            rfl
          have hd1getcol : d1.getCol col = df.getCol col :=
            getCol_setCol_ne df _ col _ (fun h => stft_append_ne_self col h.symm)
          have hgetsc : d2.getCol ("stft_" ++ col) = (df.getCol col).map f := by
            rw [hd2def,
                getCol_setCol_ne d1 _ _ _ (stft_append_ne_dwt_append col col),
                hd1def, getCol_setCol_self]
          have hgetdc : d2.getCol ("dwt_" ++ col) = (df.getCol col).map g := by
            rw [hd2def, getCol_setCol_self, hd1getcol]
          have hgetother : ∀ name, name ≠ "stft_" ++ col →
              name ≠ "dwt_" ++ col → d2.getCol name = df.getCol name := by
            intro name h1 h2
            rw [hd2def, getCol_setCol_ne d1 _ name _ h2, hd1def,
                getCol_setCol_ne df _ name _ h1]
          have hstab : ∀ c ∈ rest, d2.hasCol c = df.hasCol c := by
            intro c hc
            have hcsc : c ≠ "stft_" ++ col :=
              fun h => hscNin (h ▸ List.mem_cons_of_mem col hc)
            have hcdc : c ≠ "dwt_" ++ col :=
              fun h => hdcNin (h ▸ List.mem_cons_of_mem col hc)
            have hiff : (c ∈ d2.names) ↔ (c ∈ df.names) := by
              rw [hd2names]
              simp [List.mem_append, hcsc, hcdc]
            simp only [DF.hasCol]
            exact decide_eq_decide.mpr hiff
          have hfr2 : ∀ c ∈ rest,
              d2.hasCol ("stft_" ++ c) = false
              ∧ d2.hasCol ("dwt_" ++ c) = false
              ∧ ("stft_" ++ c) ∉ rest ∧ ("dwt_" ++ c) ∉ rest := by
            intro c hc
            obtain ⟨h1, h2, h3, h4⟩ := hfr c (List.mem_cons_of_mem col hc)
            have hcne : c ≠ col := fun h => hcolNin (h ▸ hc)
            refine ⟨?_, ?_, fun h => h3 (List.mem_cons_of_mem col h),
                    fun h => h4 (List.mem_cons_of_mem col h)⟩
            · rw [hasCol_false_iff, hd2names]
              intro hmem
              rcases List.mem_append.mp hmem with h | h
              · exact (hasCol_false_iff df _).mp h1 h
              · rcases List.mem_cons.mp h with h | h
                · exact hcne (stft_append_inj h)
                · simp only [List.mem_singleton] at h
                  exact stft_append_ne_dwt_append c col h
            · rw [hasCol_false_iff, hd2names]
              intro hmem
              rcases List.mem_append.mp hmem with h | h
              · exact (hasCol_false_iff df _).mp h2 h
              · rcases List.mem_cons.mp h with h | h
                · exact stft_append_ne_dwt_append col c h.symm
                · simp only [List.mem_singleton] at h
                  exact hcne (dwt_append_inj h)
          obtain ⟨ih1, ih2, ih3, ih4⟩ := ih d2 hfr2 hndr
          refine ⟨?_, ?_, ?_, ?_⟩
          · rw [ih1, hd2names, List.filter_congr hstab]
            simp only [List.filter_cons, hpres, if_true, List.map_cons,
              List.flatten_cons, List.append_assoc, List.cons_append]
          · intro name hname
            have h1 : name ≠ "stft_" ++ col := fun h => hSC (h ▸ hname)
            have h2 : name ≠ "dwt_" ++ col := fun h => hDC (h ▸ hname)
            have hmem2 : name ∈ d2.names := by
              rw [hd2names]
              exact List.mem_append_left _ hname
            rw [ih2 name hmem2, hgetother name h1 h2]
          · intro c hc hpc
            rcases List.mem_cons.mp hc with rfl | hcr
            · constructor
              · have hmem : ("stft_" ++ c) ∈ d2.names := by
                  rw [hd2names]
                  exact List.mem_append_right _ (by simp)
                rw [ih2 _ hmem, hgetsc]
              · have hmem : ("dwt_" ++ c) ∈ d2.names := by
                  rw [hd2names]
                  exact List.mem_append_right _ (by simp)
                rw [ih2 _ hmem, hgetdc]
            · have hpc2 : d2.hasCol c = true := by
                rw [hstab c hcr]
                exact hpc
              obtain ⟨ha, hb⟩ := ih3 c hcr hpc2
              have hcsc : c ≠ "stft_" ++ col :=
                fun h => hscNin (h ▸ List.mem_cons_of_mem col hcr)
              have hcdc : c ≠ "dwt_" ++ col :=
                fun h => hdcNin (h ▸ List.mem_cons_of_mem col hcr)
              rw [hgetother c hcsc hcdc] at ha hb
              exact ⟨ha, hb⟩
          · intro c hc hpc
            rcases List.mem_cons.mp hc with rfl | hcr
            · exact absurd (hpres.symm.trans hpc) (by decide)
            · have hpc2 : d2.hasCol c = false := by
                rw [hstab c hcr]
                exact hpc
              exact ih4 c hcr hpc2

/-- Witness for C5: a 3-row table with column `"sizes"`, applied to
`["sizes", "missing_col"]`, gains exactly `stft_sizes` and `dwt_sizes`
and nothing for the missing name. -/
theorem claim_C5_batch_applier_witness :
    ((∀ c ∈ (["sizes", "missing_col"] : List String),
        (⟨[("sizes", [[(1 : ℚ)], [2], [3]])]⟩ : DF).hasCol ("stft_" ++ c) = false
        ∧ (⟨[("sizes", [[(1 : ℚ)], [2], [3]])]⟩ : DF).hasCol ("dwt_" ++ c) = false
        ∧ ("stft_" ++ c) ∉ (["sizes", "missing_col"] : List String)
        ∧ ("dwt_" ++ c) ∉ (["sizes", "missing_col"] : List String))
      ∧ (["sizes", "missing_col"] : List String).Nodup)
    ∧ ((apply_feature_extraction id id ⟨[("sizes", [[(1 : ℚ)], [2], [3]])]⟩
            ["sizes", "missing_col"]).names
          = (⟨[("sizes", [[(1 : ℚ)], [2], [3]])]⟩ : DF).names
            ++ (((["sizes", "missing_col"] : List String).filter
                  (fun c => (⟨[("sizes", [[(1 : ℚ)], [2], [3]])]⟩ : DF).hasCol c)).map
                (fun c => ["stft_" ++ c, "dwt_" ++ c])).flatten
        ∧ (∀ name ∈ (⟨[("sizes", [[(1 : ℚ)], [2], [3]])]⟩ : DF).names,
            (apply_feature_extraction id id ⟨[("sizes", [[(1 : ℚ)], [2], [3]])]⟩
                ["sizes", "missing_col"]).getCol name
              = (⟨[("sizes", [[(1 : ℚ)], [2], [3]])]⟩ : DF).getCol name)
        ∧ (∀ c ∈ (["sizes", "missing_col"] : List String),
            (⟨[("sizes", [[(1 : ℚ)], [2], [3]])]⟩ : DF).hasCol c = true →
            (apply_feature_extraction id id ⟨[("sizes", [[(1 : ℚ)], [2], [3]])]⟩
                ["sizes", "missing_col"]).getCol ("stft_" ++ c)
                = ((⟨[("sizes", [[(1 : ℚ)], [2], [3]])]⟩ : DF).getCol c).map id
            ∧ (apply_feature_extraction id id ⟨[("sizes", [[(1 : ℚ)], [2], [3]])]⟩
                ["sizes", "missing_col"]).getCol ("dwt_" ++ c)
                = ((⟨[("sizes", [[(1 : ℚ)], [2], [3]])]⟩ : DF).getCol c).map id)
        ∧ (∀ c ∈ (["sizes", "missing_col"] : List String),
            (⟨[("sizes", [[(1 : ℚ)], [2], [3]])]⟩ : DF).hasCol c = false →
            (apply_feature_extraction id id ⟨[("sizes", [[(1 : ℚ)], [2], [3]])]⟩
                ["sizes", "missing_col"]).hasCol ("stft_" ++ c) = false
            ∧ (apply_feature_extraction id id ⟨[("sizes", [[(1 : ℚ)], [2], [3]])]⟩
                ["sizes", "missing_col"]).hasCol ("dwt_" ++ c) = false)) :=
  ⟨⟨by decide, by decide⟩,
   claim_C5_batch_applier id id ["sizes", "missing_col"]
     ⟨[("sizes", [[(1 : ℚ)], [2], [3]])]⟩ (by decide) (by decide)⟩

/-- C10: the two source definitions of `apply_feature_extraction` (the
earlier plain one and the later annotated one that overrides it) are
line-identical and hence behaviourally equivalent on every dataset and
column list; taking the final definition as authoritative loses
nothing. -/
theorem claim_C10_applier_versions_equal (f g : Cell → Cell) (df : DF)
    (columns : List String) :
    apply_feature_extraction_v1 f g df columns
      = apply_feature_extraction f g df columns := rfl
